import Mathlib

/-!
Verification of the v4v-analytics transaction reconciliation and aggregation
engine, shallowly embedded from the JavaScript sources
(`src/lib/v4v-data.js`, `src/lib/transformers.js`, `src/lib/formatters/json.js`
and the transactions module).

Modelling conventions:
* millisatoshi amounts and Unix timestamps are natural numbers; a timestamp 0
  is identified with an absent timestamp, matching the JavaScript `||`
  falsiness used throughout the source (`tx.settled_at || tx.created_at || 0`);
* the wallet backend is a fixed list of transactions paged in slices of
  `limit` records, as produced by `listTransactions` at offsets 0, limit, ...;
* JavaScript number arithmetic on USD values is modelled over the rationals;
* `Array.prototype.sort` (stable since ES2019) is modelled by the stable
  `List.insertionSort` on the non-strict order induced by the comparator
  (a stable sort of a list by a total preorder is unique, so any stable
  sorting algorithm is a faithful model);
* the process time zone is taken to be UTC, so `Date` calendar accessors and
  `toISOString` agree on the day.
-/

namespace V4V

/-- Transaction record as listed by the wallet (see the `Transaction` typedef
in `src/lib/transformers.js`): `payment_hash` is the dedupe key, `amount` is
in millisatoshis, timestamps are Unix seconds with 0 standing for an absent
(or zero, which JavaScript cannot distinguish via `||`) field. -/
structure Tx where
  payment_hash : String
  amount : Nat
  settled_at : Nat
  created_at : Nat
  description : Option String
deriving DecidableEq, Repr

/-- Effective timestamp `tx.settled_at || tx.created_at || 0`. -/
def effTime (tx : Tx) : Nat :=
  if tx.settled_at ≠ 0 then tx.settled_at else tx.created_at

/-- Effective timestamp with absent mapped to `none` (JavaScript `Infinity`),
as in `tx.settled_at || tx.created_at || Infinity` used for `oldestInBatch`. -/
def effTimeInf (tx : Tx) : Option Nat :=
  if tx.settled_at ≠ 0 then some tx.settled_at
  else if tx.created_at ≠ 0 then some tx.created_at
  else none

/-- Satoshi value of a transaction: `Math.floor(tx.amount / 1000)`. -/
def txSats (tx : Tx) : Nat := tx.amount / 1000

/-- Math.min over the effective timestamps of a batch, where a transaction
lacking both timestamps contributes `Infinity` (`none` means the minimum is
infinite, i.e. no transaction had a timestamp). -/
def oldestInBatch (batch : List Tx) : Option Nat :=
  (batch.filterMap effTimeInf).min?

/-- The cache-horizon test `oldestInBatch <= latestCached` (false when the
minimum is `Infinity`). -/
def horizonReached (batch : List Tx) (latest : Nat) : Bool :=
  match oldestInBatch batch with
  | some m => decide (m ≤ latest)
  | none => false

/-- Latest cached effective timestamp:
`cached.length > 0 ? Math.max(...cached.map(tx => tx.settled_at || tx.created_at || 0)) : 0`. -/
def latestCached (cached : List Tx) : Nat :=
  (cached.map effTime).foldr max 0

/-- Result of the paging loop: the `newTransactions` accumulator and the
number of `listTransactions` requests issued. -/
structure LoopOut where
  newTxs : List Tx
  requests : Nat
deriving DecidableEq, Repr

/-- The paging loop of `fetchTransactions`: page through the wallet listing in
batches of `limit` starting at `offset`, append to `acc` every transaction
whose effective timestamp exceeds `latest`, and stop on an empty batch, on
reaching the cache horizon, on a short batch, or after `fuel` (= remaining
`maxBatches`) requests. -/
def fetchLoop (wallet : List Tx) (limit latest : Nat) :
    Nat → Nat → List Tx → LoopOut
  | 0, _, acc => ⟨acc, 0⟩
  | fuel + 1, offset, acc =>
    let batch := (wallet.drop offset).take limit
    if batch = [] then ⟨acc, 1⟩
    else
      let acc' := acc ++ batch.filter (fun tx => decide (latest < effTime tx))
      if horizonReached batch latest then ⟨acc', 1⟩
      else if batch.length < limit then ⟨acc', 1⟩
      else
        let r := fetchLoop wallet limit latest fuel (offset + limit) acc'
        ⟨r.newTxs, r.requests + 1⟩

/-- Keep the first occurrence of each `payment_hash` (the `seen` set /
`merged` accumulator loop of `fetchTransactions`). -/
def dedupeByHash : List String → List Tx → List Tx
  | _, [] => []
  | seen, tx :: rest =>
    if tx.payment_hash ∈ seen then dedupeByHash seen rest
    else tx :: dedupeByHash (tx.payment_hash :: seen) rest

/-- Stable sort by effective timestamp descending:
`merged.sort((a, b) => (b.settled_at || b.created_at || 0) - (a.settled_at || a.created_at || 0))`. -/
def sortByTimeDesc (txs : List Tx) : List Tx :=
  txs.insertionSort (fun a b => effTime b ≤ effTime a)

/-- Merge newly fetched transactions ahead of the cached list, deduplicate by
`payment_hash` keeping the first occurrence, and sort by time descending. -/
def mergeTransactions (newTxs cached : List Tx) : List Tx :=
  sortByTimeDesc (dedupeByHash [] (newTxs ++ cached))

/-- Pure model of `fetchTransactions` (src/lib/v4v-data.js lines 170-260):
the returned list is also exactly what `saveCache` persists as the new
snapshot's `transactions` field. -/
def fetchTransactions (wallet cached : List Tx) (limit maxBatches : Nat) :
    List Tx :=
  let latest := latestCached cached
  let out := fetchLoop wallet limit latest maxBatches 0 []
  mergeTransactions out.newTxs cached

/-! ### Properties of the dedupe pass -/

theorem dedupeByHash_subset {seen : List String} {l : List Tx} {t : Tx}
    (h : t ∈ dedupeByHash seen l) : t ∈ l := by
  induction l generalizing seen with
  | nil => simp [dedupeByHash] at h
  | cons x xs ih =>
    by_cases hx : x.payment_hash ∈ seen
    · rw [dedupeByHash, if_pos hx] at h
      exact List.mem_cons_of_mem _ (ih h)
    · rw [dedupeByHash, if_neg hx] at h
      rcases List.mem_cons.mp h with h | h
      · simp [h]
      · exact List.mem_cons_of_mem _ (ih h)

theorem dedupeByHash_not_seen {seen : List String} {l : List Tx} {t : Tx}
    (h : t ∈ dedupeByHash seen l) : t.payment_hash ∉ seen := by
  induction l generalizing seen with
  | nil => simp [dedupeByHash] at h
  | cons x xs ih =>
    by_cases hx : x.payment_hash ∈ seen
    · rw [dedupeByHash, if_pos hx] at h
      exact ih h
    · rw [dedupeByHash, if_neg hx] at h
      rcases List.mem_cons.mp h with h | h
      · subst h; assumption
      · intro hmem
        exact ih h (List.mem_cons_of_mem _ hmem)

theorem dedupeByHash_nodup (seen : List String) (l : List Tx) :
    ((dedupeByHash seen l).map Tx.payment_hash).Nodup := by
  induction l generalizing seen with
  | nil => simp [dedupeByHash]
  | cons x xs ih =>
    by_cases hx : x.payment_hash ∈ seen
    · rw [dedupeByHash, if_pos hx]
      exact ih seen
    · rw [dedupeByHash, if_neg hx, List.map_cons]
      refine List.Nodup.cons ?_ (ih _)
      intro hmem
      rcases List.mem_map.mp hmem with ⟨u, hu, hhash⟩
      exact dedupeByHash_not_seen hu (by simp [hhash])

theorem dedupeByHash_find? {seen : List String} {l : List Tx} {t : Tx}
    (h : t ∈ dedupeByHash seen l) :
    l.find? (fun u => u.payment_hash == t.payment_hash) = some t := by
  induction l generalizing seen with
  | nil => simp [dedupeByHash] at h
  | cons x xs ih =>
    by_cases hx : x.payment_hash ∈ seen
    · rw [dedupeByHash, if_pos hx] at h
      have hne : x.payment_hash ≠ t.payment_hash := by
        intro he
        exact dedupeByHash_not_seen h (he ▸ hx)
      rw [List.find?_cons_of_neg _ (by simpa using hne)]
      exact ih h
    · rw [dedupeByHash, if_neg hx] at h
      rcases List.mem_cons.mp h with h | h
      · subst h
        rw [List.find?_cons_of_pos _ (by simp)]
      · have hne : x.payment_hash ≠ t.payment_hash := by
          intro he
          exact dedupeByHash_not_seen h (by simp [he])
        rw [List.find?_cons_of_neg _ (by simpa using hne)]
        exact ih h

theorem dedupeByHash_hash_complete {seen : List String} {l : List Tx} {t : Tx}
    (hmem : t ∈ l) (hseen : t.payment_hash ∉ seen) :
    ∃ u ∈ dedupeByHash seen l, u.payment_hash = t.payment_hash := by
  induction l generalizing seen with
  | nil => simp at hmem
  | cons x xs ih =>
    by_cases hx : x.payment_hash ∈ seen
    · rw [dedupeByHash, if_pos hx]
      rcases List.mem_cons.mp hmem with hmem | hmem
      · exact absurd (by rw [hmem]; exact hx) hseen
      · exact ih hmem hseen
    · rw [dedupeByHash, if_neg hx]
      rcases List.mem_cons.mp hmem with hmem | hmem
      · exact ⟨x, by simp, by rw [hmem]⟩
      · by_cases hh : t.payment_hash = x.payment_hash
        · exact ⟨x, by simp, hh.symm⟩
        · have h' : t.payment_hash ∉ x.payment_hash :: seen := by
            intro hc
            rcases List.mem_cons.mp hc with hc | hc
            · exact hh hc
            · exact hseen hc
          rcases ih hmem h' with ⟨u, hu, he⟩
          exact ⟨u, by simp [hu], he⟩

theorem dedupeByHash_eq_self {seen : List String} {l : List Tx}
    (hnodup : (l.map Tx.payment_hash).Nodup)
    (hdisj : ∀ t ∈ l, t.payment_hash ∉ seen) :
    dedupeByHash seen l = l := by
  induction l generalizing seen with
  | nil => rfl
  | cons x xs ih =>
    rw [List.map_cons, List.nodup_cons] at hnodup
    rw [dedupeByHash, if_neg (hdisj x (by simp))]
    congr 1
    refine ih hnodup.2 ?_
    intro t ht
    simp only [List.mem_cons, not_or]
    refine ⟨?_, hdisj t (List.mem_cons_of_mem _ ht)⟩
    intro he
    exact hnodup.1 (he ▸ List.mem_map_of_mem Tx.payment_hash ht)

/-- With first-seen-wins semantics, if all records sharing a hash are equal,
every input record survives deduplication. -/
theorem dedupeByHash_mem_of_consistent {l : List Tx} {t : Tx}
    (hcons : ∀ t₁ ∈ l, ∀ t₂ ∈ l, t₁.payment_hash = t₂.payment_hash → t₁ = t₂)
    (hmem : t ∈ l) : t ∈ dedupeByHash [] l := by
  rcases @dedupeByHash_hash_complete [] _ _ hmem (by simp) with ⟨u, hu, he⟩
  have : u = t := hcons u (dedupeByHash_subset hu) t hmem he
  exact this ▸ hu

/-! ### Basic facts about the stable descending sort -/

instance : IsTotal Tx (fun a b => effTime b ≤ effTime a) :=
  ⟨fun a b => Or.symm (Nat.le_total (effTime a) (effTime b))⟩

instance : IsTrans Tx (fun a b => effTime b ≤ effTime a) :=
  ⟨fun _ _ _ h₁ h₂ => le_trans h₂ h₁⟩

theorem sortByTimeDesc_perm (txs : List Tx) : (sortByTimeDesc txs).Perm txs :=
  List.perm_insertionSort _ txs

theorem mem_sortByTimeDesc {txs : List Tx} {t : Tx} :
    t ∈ sortByTimeDesc txs ↔ t ∈ txs :=
  (sortByTimeDesc_perm txs).mem_iff

theorem sortByTimeDesc_sorted (txs : List Tx) :
    (sortByTimeDesc txs).Pairwise (fun a b => effTime b ≤ effTime a) :=
  List.sorted_insertionSort _ txs

theorem sortByTimeDesc_of_sorted {txs : List Tx}
    (h : txs.Pairwise (fun a b => effTime b ≤ effTime a)) :
    sortByTimeDesc txs = txs :=
  List.Sorted.insertionSort_eq h

theorem sortByTimeDesc_idem (txs : List Tx) :
    sortByTimeDesc (sortByTimeDesc txs) = sortByTimeDesc txs :=
  sortByTimeDesc_of_sorted (sortByTimeDesc_sorted txs)

/-! ### Properties of the paging loop -/

theorem fetchLoop_succ (w : List Tx) (L lat fuel offset : Nat) (acc : List Tx) :
    fetchLoop w L lat (fuel + 1) offset acc =
      if (w.drop offset).take L = [] then ⟨acc, 1⟩
      else if horizonReached ((w.drop offset).take L) lat then
        ⟨acc ++ ((w.drop offset).take L).filter
          (fun tx => decide (lat < effTime tx)), 1⟩
      else if ((w.drop offset).take L).length < L then
        ⟨acc ++ ((w.drop offset).take L).filter
          (fun tx => decide (lat < effTime tx)), 1⟩
      else
        ⟨(fetchLoop w L lat fuel (offset + L) (acc ++ ((w.drop offset).take L).filter
            (fun tx => decide (lat < effTime tx)))).newTxs,
         (fetchLoop w L lat fuel (offset + L) (acc ++ ((w.drop offset).take L).filter
            (fun tx => decide (lat < effTime tx)))).requests + 1⟩ := rfl

theorem fetchLoop_newTxs_append (w : List Tx) (L lat : Nat) :
    ∀ (fuel offset : Nat) (acc : List Tx),
      (fetchLoop w L lat fuel offset acc).newTxs =
        acc ++ (fetchLoop w L lat fuel offset []).newTxs := by
  intro fuel
  induction fuel with
  | zero => intro offset acc; simp [fetchLoop]
  | succ fuel ih =>
    intro offset acc
    rw [fetchLoop_succ, fetchLoop_succ]
    by_cases hb : (w.drop offset).take L = []
    · rw [if_pos hb, if_pos hb]; simp
    · rw [if_neg hb, if_neg hb]
      by_cases hh : horizonReached ((w.drop offset).take L) lat
      · rw [if_pos hh, if_pos hh]; simp
      · rw [if_neg hh, if_neg hh]
        by_cases hlen : ((w.drop offset).take L).length < L
        · rw [if_pos hlen, if_pos hlen]; simp
        · rw [if_neg hlen, if_neg hlen]
          simp only
          rw [ih _ (acc ++ _), ih _ ([] ++ _)]
          simp

theorem fetchLoop_mem (w : List Tx) (L lat : Nat) :
    ∀ (fuel offset : Nat) (acc : List Tx) (t : Tx),
      t ∈ (fetchLoop w L lat fuel offset acc).newTxs →
        t ∈ acc ∨ (t ∈ w ∧ lat < effTime t) := by
  intro fuel
  induction fuel with
  | zero => intro offset acc t h; exact Or.inl (by simpa [fetchLoop] using h)
  | succ fuel ih =>
    intro offset acc t h
    have hbatchmem : ∀ u : Tx, u ∈ (w.drop offset).take L → u ∈ w := by
      intro u hu
      exact ((List.take_sublist _ _).trans (List.drop_sublist _ _)).mem hu
    rw [fetchLoop_succ] at h
    by_cases hb : (w.drop offset).take L = []
    · rw [if_pos hb] at h
      exact Or.inl h
    · rw [if_neg hb] at h
      have hfilter : ∀ u : Tx,
          u ∈ ((w.drop offset).take L).filter (fun tx => decide (lat < effTime tx)) →
            u ∈ w ∧ lat < effTime u := by
        intro u hu
        rcases List.mem_filter.mp hu with ⟨hu₁, hu₂⟩
        exact ⟨hbatchmem u hu₁, by simpa using hu₂⟩
      by_cases hh : horizonReached ((w.drop offset).take L) lat
      · rw [if_pos hh] at h
        rcases List.mem_append.mp h with h | h
        · exact Or.inl h
        · exact Or.inr (hfilter t h)
      · rw [if_neg hh] at h
        by_cases hlen : ((w.drop offset).take L).length < L
        · rw [if_pos hlen] at h
          rcases List.mem_append.mp h with h | h
          · exact Or.inl h
          · exact Or.inr (hfilter t h)
        · rw [if_neg hlen] at h
          simp only at h
          rcases ih _ _ t h with h | h
          · rcases List.mem_append.mp h with h | h
            · exact Or.inl h
            · exact Or.inr (hfilter t h)
          · exact Or.inr h

/-- Every transaction the loop collects comes from the wallet listing and has
an effective timestamp strictly above the cache horizon. -/
theorem fetchLoop_newTxs_spec (w : List Tx) (L lat fuel : Nat) (t : Tx)
    (h : t ∈ (fetchLoop w L lat fuel 0 []).newTxs) :
    t ∈ w ∧ lat < effTime t := by
  rcases fetchLoop_mem w L lat fuel 0 [] t h with h | h
  · simp at h
  · exact h

/-! ### Claim C1 -/

/-- C1: for every cached list and wallet listing, the list returned by
`fetchTransactions` has pairwise-distinct `payment_hash` values; the unique
surviving record for each hash is the first occurrence of that hash in the
concatenation of the newly fetched transactions (in fetch order) followed by
the cached list, so newly fetched data takes precedence over cached copies;
and every hash occurring in that concatenation survives. -/
theorem fetchTransactions_dedup_firstWins
    (wallet cached : List Tx) (limit maxBatches : Nat) :
    ((fetchTransactions wallet cached limit maxBatches).map Tx.payment_hash).Nodup ∧
    (∀ t ∈ fetchTransactions wallet cached limit maxBatches,
      ((fetchLoop wallet limit (latestCached cached) maxBatches 0 []).newTxs
          ++ cached).find? (fun u => u.payment_hash == t.payment_hash) = some t) ∧
    (∀ t ∈ (fetchLoop wallet limit (latestCached cached) maxBatches 0 []).newTxs
        ++ cached,
      ∃ u ∈ fetchTransactions wallet cached limit maxBatches,
        u.payment_hash = t.payment_hash) := by
  have hunfold : fetchTransactions wallet cached limit maxBatches =
      sortByTimeDesc (dedupeByHash []
        ((fetchLoop wallet limit (latestCached cached) maxBatches 0 []).newTxs
          ++ cached)) := rfl
  refine ⟨?_, ?_, ?_⟩
  · rw [hunfold]
    have hperm := (sortByTimeDesc_perm (dedupeByHash []
      ((fetchLoop wallet limit (latestCached cached) maxBatches 0 []).newTxs
        ++ cached))).map Tx.payment_hash
    exact hperm.nodup_iff.mpr (dedupeByHash_nodup _ _)
  · intro t ht
    rw [hunfold] at ht
    exact dedupeByHash_find? (mem_sortByTimeDesc.mp ht)
  · intro t ht
    rcases @dedupeByHash_hash_complete [] _ _ ht (by simp) with ⟨u, hu, he⟩
    exact ⟨u, by rw [hunfold]; exact mem_sortByTimeDesc.mpr hu, he⟩

/-! ### Cache horizon arithmetic -/

theorem latestCached_ge {l : List Tx} {t : Tx} (h : t ∈ l) :
    effTime t ≤ latestCached l := by
  unfold latestCached
  induction l with
  | nil => simp at h
  | cons x xs ih =>
    rcases List.mem_cons.mp h with h | h
    · subst h; exact le_max_left _ _
    · exact (ih h).trans (le_max_right _ _)

theorem latestCached_le {l : List Tx} {b : Nat}
    (h : ∀ t ∈ l, effTime t ≤ b) : latestCached l ≤ b := by
  unfold latestCached
  induction l with
  | nil => simp
  | cons x xs ih =>
    simp only [List.map_cons, List.foldr_cons]
    exact max_le (h x (by simp)) (ih fun t ht => h t (List.mem_cons_of_mem _ ht))

theorem horizonReached_mono {b : List Tx} {lat lat' : Nat} (hle : lat ≤ lat')
    (h : horizonReached b lat = true) : horizonReached b lat' = true := by
  unfold horizonReached at h ⊢
  cases hmin : oldestInBatch b with
  | none =>
    rw [hmin] at h
    exact Bool.noConfusion h
  | some m =>
    rw [hmin] at h
    have h' : m ≤ lat := by simpa using h
    show decide (m ≤ lat') = true
    simp only [decide_eq_true_eq]
    omega

/-- Transactions the loop appends in a batch it processes are part of its
final accumulator. -/
theorem fetchLoop_filter_mem (w : List Tx) (L lat fuel offset : Nat) (u : Tx)
    (hb : (w.drop offset).take L ≠ [])
    (hu : u ∈ ((w.drop offset).take L).filter
      (fun tx => decide (lat < effTime tx))) :
    u ∈ (fetchLoop w L lat (fuel + 1) offset []).newTxs := by
  rw [fetchLoop_succ, if_neg hb]
  by_cases hh : horizonReached ((w.drop offset).take L) lat
  · rw [if_pos hh]; simpa using hu
  · rw [if_neg hh]
    by_cases hlen : ((w.drop offset).take L).length < L
    · rw [if_pos hlen]; simpa using hu
    · rw [if_neg hlen]
      simp only
      rw [fetchLoop_newTxs_append]
      simp only [List.nil_append]
      exact List.mem_append_left _ hu

/-- If everything the loop would collect above horizon `lat` already has an
effective timestamp at most `lat'`, then re-running the loop with the higher
horizon `lat'` collects nothing at all. -/
theorem fetchLoop_null (w : List Tx) (L : Nat) {lat lat' : Nat}
    (hle : lat ≤ lat') :
    ∀ (fuel offset : Nat),
      (∀ t ∈ (fetchLoop w L lat fuel offset []).newTxs, effTime t ≤ lat') →
      (fetchLoop w L lat' fuel offset []).newTxs = [] := by
  intro fuel
  induction fuel with
  | zero => intro offset _; simp [fetchLoop]
  | succ fuel ih =>
    intro offset hbound
    by_cases hb : (w.drop offset).take L = []
    · rw [fetchLoop_succ, if_pos hb]
    · have hfilter' : ((w.drop offset).take L).filter
          (fun tx => decide (lat' < effTime tx)) = [] := by
        rw [List.filter_eq_nil_iff]
        intro u hu hdec
        have hlt' : lat' < effTime u := by simpa using hdec
        have hmem1 : u ∈ ((w.drop offset).take L).filter
            (fun tx => decide (lat < effTime tx)) :=
          List.mem_filter.mpr ⟨hu, by simp only [decide_eq_true_eq]; omega⟩
        have := hbound u (fetchLoop_filter_mem w L lat fuel offset u hb hmem1)
        omega
      rw [fetchLoop_succ, if_neg hb]
      by_cases hh' : horizonReached ((w.drop offset).take L) lat'
      · rw [if_pos hh']
        simpa using hfilter'
      · rw [if_neg hh']
        by_cases hlen : ((w.drop offset).take L).length < L
        · rw [if_pos hlen]
          simpa using hfilter'
        · rw [if_neg hlen]
          simp only
          rw [hfilter', List.append_nil]
          refine ih (offset + L) ?_
          intro t ht
          refine hbound t ?_
          have hhlat : ¬ horizonReached ((w.drop offset).take L) lat = true :=
            fun hcon => hh' (horizonReached_mono hle hcon)
          rw [fetchLoop_succ, if_neg hb, if_neg hhlat, if_neg hlen]
          simp only
          rw [fetchLoop_newTxs_append]
          exact List.mem_append_right _ ht

theorem mergeTransactions_hash_nodup (newTxs cached : List Tx) :
    ((mergeTransactions newTxs cached).map Tx.payment_hash).Nodup :=
  ((sortByTimeDesc_perm _).map Tx.payment_hash).nodup_iff.mpr
    (dedupeByHash_nodup _ _)

/-! ### Claim C2 -/

/-- C2: running the fetch pipeline a second time against an unchanged wallet
listing returns the same transaction list (hence persists the same snapshot,
up to the `updated` stamp, which is outside the data model) as the first run,
and the result carries no duplicate `payment_hash`. The hypothesis is the
spec's own data-model invariant: `payment_hash` uniquely identifies a
transaction, so records sharing a hash are the same record. -/
theorem fetchTransactions_idempotent (wallet cached : List Tx)
    (limit maxBatches : Nat)
    (hcons : ∀ t₁ ∈ wallet ++ cached, ∀ t₂ ∈ wallet ++ cached,
      t₁.payment_hash = t₂.payment_hash → t₁ = t₂) :
    fetchTransactions wallet (fetchTransactions wallet cached limit maxBatches)
        limit maxBatches
      = fetchTransactions wallet cached limit maxBatches ∧
    ((fetchTransactions wallet (fetchTransactions wallet cached limit maxBatches)
        limit maxBatches).map Tx.payment_hash).Nodup := by
  have hm₁eq : fetchTransactions wallet cached limit maxBatches =
      sortByTimeDesc (dedupeByHash []
        ((fetchLoop wallet limit (latestCached cached) maxBatches 0 []).newTxs
          ++ cached)) := rfl
  have hsrc : ∀ t ∈ (fetchLoop wallet limit (latestCached cached) maxBatches
      0 []).newTxs ++ cached, t ∈ wallet ++ cached := by
    intro t ht
    rcases List.mem_append.mp ht with ht | ht
    · exact List.mem_append_left _ (fetchLoop_newTxs_spec _ _ _ _ t ht).1
    · exact List.mem_append_right _ ht
  have hmem : ∀ t ∈ (fetchLoop wallet limit (latestCached cached) maxBatches
      0 []).newTxs ++ cached,
      t ∈ fetchTransactions wallet cached limit maxBatches := by
    intro t ht
    rw [hm₁eq]
    refine mem_sortByTimeDesc.mpr (dedupeByHash_mem_of_consistent ?_ ht)
    intro t₁ h₁ t₂ h₂ hh
    exact hcons t₁ (hsrc t₁ h₁) t₂ (hsrc t₂ h₂) hh
  have heff : ∀ t ∈ (fetchLoop wallet limit (latestCached cached) maxBatches
      0 []).newTxs ++ cached,
      effTime t ≤ latestCached (fetchTransactions wallet cached limit maxBatches) :=
    fun t ht => latestCached_ge (hmem t ht)
  have hlat : latestCached cached ≤
      latestCached (fetchTransactions wallet cached limit maxBatches) :=
    latestCached_le fun t ht => heff t (List.mem_append_right _ ht)
  have hnull : (fetchLoop wallet limit
      (latestCached (fetchTransactions wallet cached limit maxBatches))
      maxBatches 0 []).newTxs = [] := by
    refine fetchLoop_null wallet limit hlat maxBatches 0 ?_
    intro t ht
    exact heff t (List.mem_append_left _ ht)
  have hnodup : ((fetchTransactions wallet cached limit maxBatches).map
      Tx.payment_hash).Nodup := mergeTransactions_hash_nodup _ _
  have hmain : fetchTransactions wallet
      (fetchTransactions wallet cached limit maxBatches) limit maxBatches
      = fetchTransactions wallet cached limit maxBatches := by
    show sortByTimeDesc (dedupeByHash []
      ((fetchLoop wallet limit
        (latestCached (fetchTransactions wallet cached limit maxBatches))
        maxBatches 0 []).newTxs
        ++ fetchTransactions wallet cached limit maxBatches))
      = fetchTransactions wallet cached limit maxBatches
    rw [hnull, List.nil_append, dedupeByHash_eq_self hnodup (by simp)]
    rw [hm₁eq]
    exact sortByTimeDesc_idem _
  exact ⟨hmain, by rw [hmain]; exact hnodup⟩

/-! ### Claim C8 -/

/-- C8: whatever list of newly fetched transactions the paging loop produced
(including a degraded run that stopped after exhausted retries), every
`payment_hash` present in the cache before the fetch is still present in the
merged list that `fetchTransactions` returns and persists. -/
theorem fetchTransactions_preserves_cached
    (wallet newTxs cached : List Tx) (limit maxBatches : Nat) :
    (∀ t ∈ cached, ∃ u ∈ mergeTransactions newTxs cached,
      u.payment_hash = t.payment_hash) ∧
    (∀ t ∈ cached, ∃ u ∈ fetchTransactions wallet cached limit maxBatches,
      u.payment_hash = t.payment_hash) := by
  constructor
  · intro t ht
    rcases @dedupeByHash_hash_complete [] _ _
      (List.mem_append_right newTxs ht) (by simp) with ⟨u, hu, he⟩
    exact ⟨u, mem_sortByTimeDesc.mpr hu, he⟩
  · intro t ht
    rcases @dedupeByHash_hash_complete [] _ _
      (List.mem_append_right
        (fetchLoop wallet limit (latestCached cached) maxBatches 0 []).newTxs ht)
      (by simp) with ⟨u, hu, he⟩
    exact ⟨u, mem_sortByTimeDesc.mpr hu, he⟩

/-! ### Claim C9: the paging loop is bounded -/

theorem fetchLoop_requests_le (w : List Tx) (L lat : Nat) :
    ∀ (fuel offset : Nat) (acc : List Tx),
      (fetchLoop w L lat fuel offset acc).requests ≤ fuel := by
  intro fuel
  induction fuel with
  | zero => intro offset acc; simp [fetchLoop]
  | succ fuel ih =>
    intro offset acc
    rw [fetchLoop_succ]
    by_cases hb : (w.drop offset).take L = []
    · rw [if_pos hb]; dsimp only; omega
    · rw [if_neg hb]
      by_cases hh : horizonReached ((w.drop offset).take L) lat
      · rw [if_pos hh]; dsimp only; omega
      · rw [if_neg hh]
        by_cases hlen : ((w.drop offset).take L).length < L
        · rw [if_pos hlen]; dsimp only; omega
        · rw [if_neg hlen]
          have := ih (offset + L)
            (acc ++ ((w.drop offset).take L).filter
              (fun tx => decide (lat < effTime tx)))
          dsimp only
          omega

theorem fetchLoop_newTxs_length (w : List Tx) (L lat : Nat) :
    ∀ (fuel offset : Nat) (acc : List Tx),
      (fetchLoop w L lat fuel offset acc).newTxs.length ≤
        acc.length + (fetchLoop w L lat fuel offset acc).requests * L := by
  intro fuel
  induction fuel with
  | zero => intro offset acc; simp [fetchLoop]
  | succ fuel ih =>
    intro offset acc
    have hfl : (((w.drop offset).take L).filter
        (fun tx => decide (lat < effTime tx))).length ≤ L :=
      le_trans (List.length_filter_le _ _) (by simp)
    rw [fetchLoop_succ]
    by_cases hb : (w.drop offset).take L = []
    · rw [if_pos hb]; dsimp only; omega
    · rw [if_neg hb]
      by_cases hh : horizonReached ((w.drop offset).take L) lat
      · rw [if_pos hh]
        dsimp only
        simp only [List.length_append]
        omega
      · rw [if_neg hh]
        by_cases hlen : ((w.drop offset).take L).length < L
        · rw [if_pos hlen]
          dsimp only
          simp only [List.length_append]
          omega
        · rw [if_neg hlen]
          have hrec := ih (offset + L)
            (acc ++ ((w.drop offset).take L).filter
              (fun tx => decide (lat < effTime tx)))
          have hmul : ∀ r : Nat, (r + 1) * L = r * L + L := fun r => by ring
          dsimp only
          rw [hmul]
          simp only [List.length_append] at hrec ⊢
          omega

/-- Each batch request beyond the first was issued only because the previous
batch was nonempty, did not reach the cache horizon, and was full-length. -/
theorem fetchLoop_continue_char (w : List Tx) (L lat : Nat) :
    ∀ (fuel offset : Nat) (acc : List Tx) (j : Nat),
      j + 1 < (fetchLoop w L lat fuel offset acc).requests →
      ((w.drop (offset + j * L)).take L ≠ [] ∧
       horizonReached ((w.drop (offset + j * L)).take L) lat = false ∧
       L ≤ ((w.drop (offset + j * L)).take L).length) := by
  intro fuel
  induction fuel with
  | zero => intro offset acc j h; simp [fetchLoop] at h
  | succ fuel ih =>
    intro offset acc j h
    rw [fetchLoop_succ] at h
    by_cases hb : (w.drop offset).take L = []
    · rw [if_pos hb] at h; simp at h
    · rw [if_neg hb] at h
      by_cases hh : horizonReached ((w.drop offset).take L) lat
      · rw [if_pos hh] at h; simp at h
      · rw [if_neg hh] at h
        by_cases hlen : ((w.drop offset).take L).length < L
        · rw [if_pos hlen] at h; simp at h
        · rw [if_neg hlen] at h
          dsimp only at h
          cases j with
          | zero =>
            have e : offset + 0 * L = offset := by ring
            rw [e]
            exact ⟨hb, by simpa using hh, by omega⟩
          | succ j =>
            have hmem := ih (offset + L)
              (acc ++ ((w.drop offset).take L).filter
                (fun tx => decide (lat < effTime tx))) j (by omega)
            have harith : offset + L + j * L = offset + (j + 1) * L := by ring
            rwa [harith] at hmem

/-- C9: the paging loop of `fetchTransactions` always terminates, issuing at
most `maxBatches` requests (hence collecting at most `maxBatches * limit`
records), and a further request is only issued while the previous batch was
nonempty, strictly above the cache horizon, and full-length — so paging stops
as soon as the horizon is reached, a short or empty batch arrives, or the
batch cap is hit. -/
theorem fetchTransactions_paging_bounded
    (wallet cached : List Tx) (limit maxBatches : Nat) :
    (fetchLoop wallet limit (latestCached cached) maxBatches 0 []).requests
        ≤ maxBatches ∧
    (fetchLoop wallet limit (latestCached cached) maxBatches 0 []).newTxs.length
        ≤ maxBatches * limit ∧
    (∀ j, j + 1 <
        (fetchLoop wallet limit (latestCached cached) maxBatches 0 []).requests →
      ((wallet.drop (j * limit)).take limit ≠ [] ∧
       horizonReached ((wallet.drop (j * limit)).take limit)
         (latestCached cached) = false ∧
       limit ≤ ((wallet.drop (j * limit)).take limit).length)) := by
  refine ⟨fetchLoop_requests_le wallet limit (latestCached cached) maxBatches 0 [],
    ?_, ?_⟩
  · have h₁ := fetchLoop_newTxs_length wallet limit (latestCached cached)
      maxBatches 0 []
    have h₂ := fetchLoop_requests_le wallet limit (latestCached cached)
      maxBatches 0 []
    have := Nat.mul_le_mul_right limit h₂
    simpa using h₁.trans (by simpa using this)
  · intro j hj
    have := fetchLoop_continue_char wallet limit (latestCached cached)
      maxBatches 0 [] j hj
    simpa using this

/-! ### Claim C6: per-batch retry policy

The inner `while (retries < maxRetries)` loop of `fetchTransactions` is
modelled as a pure function of the sequence of attempt outcomes delivered by
the wallet RPC.  `attempt k` is the outcome of the `listTransactions` call
made with `retries = k`; `hasData` models
`newTransactions.length > 0 || cached.length > 0`; the recorded delays are
the `setTimeout(2000 * retries)` backoffs actually awaited. -/

/-- Outcome of a single `client.listTransactions` attempt: success, a
transient timeout-class error (`Nip47ReplyTimeoutError` or code `INTERNAL`),
or any other error. -/
inductive AttemptResult where
  | ok (txs : List Tx)
  | transientErr
  | fatalErr
deriving DecidableEq, Repr

/-- How the retry loop for one batch request ends. -/
inductive RetryOutcome where
  | success (txs : List Tx) (delays : List Nat)
  | degradedWarn (delays : List Nat)
  | walletUnreachable (delays : List Nat)
  | abortError (delays : List Nat)
  | noAttempt
deriving DecidableEq, Repr

/-- The retry loop body (src/lib/v4v-data.js lines 188-211): on success break
with the response; on a transient error increment `retries`, and when the
budget is exhausted either proceed degraded (data exists, warning printed) or
throw the wallet-unreachable error (no data); otherwise back off
`2000 * retries` ms and try again; on a non-transient error rethrow at once. -/
def retryLoop (attempt : Nat → AttemptResult) (hasData : Bool)
    (maxRetries : Nat) : Nat → Nat → List Nat → RetryOutcome
  | _, 0, _ => .noAttempt
  | retries, fuel + 1, delays =>
    match attempt retries with
    | .ok txs => .success txs delays
    | .transientErr =>
      if maxRetries ≤ retries + 1 then
        if hasData then .degradedWarn delays else .walletUnreachable delays
      else
        retryLoop attempt hasData maxRetries (retries + 1) fuel
          (delays ++ [2000 * (retries + 1)])
    | .fatalErr => .abortError delays

/-- One batch request with its retry loop, started with `retries = 0`. -/
def runBatchRequest (attempt : Nat → AttemptResult) (hasData : Bool)
    (maxRetries : Nat) : RetryOutcome :=
  retryLoop attempt hasData maxRetries 0 maxRetries []

theorem retryLoop_ok (f : Nat → AttemptResult) (hd : Bool) (m : Nat) :
    ∀ (fuel r : Nat) (ds : List Nat) (j : Nat) (txs : List Tx),
      r + fuel = m → r ≤ j → j < m →
      (∀ i, r ≤ i → i < j → f i = .transientErr) → f j = .ok txs →
      retryLoop f hd m r fuel ds =
        .success txs (ds ++ (List.range' (r + 1) (j - r)).map
          (fun i => 2000 * i)) := by
  intro fuel
  induction fuel with
  | zero => intro r ds j txs hrm hrj hjm _ _; omega
  | succ fuel ih =>
    intro r ds j txs hrm hrj hjm htrans hok
    rcases Nat.eq_or_lt_of_le hrj with heq | hlt
    · subst heq
      rw [retryLoop, hok]
      simp
    · rw [retryLoop, htrans r le_rfl hlt, if_neg (by omega)]
      rw [ih (r + 1) (ds ++ [2000 * (r + 1)]) j txs (by omega) (by omega) hjm
        (fun i hi₁ hi₂ => htrans i (by omega) hi₂) hok]
      have hsplit : j - r = (j - (r + 1)) + 1 := by omega
      rw [hsplit, List.range'_succ, List.map_cons]
      simp

theorem retryLoop_fatal (f : Nat → AttemptResult) (hd : Bool) (m : Nat) :
    ∀ (fuel r : Nat) (ds : List Nat) (j : Nat),
      r + fuel = m → r ≤ j → j < m →
      (∀ i, r ≤ i → i < j → f i = .transientErr) → f j = .fatalErr →
      retryLoop f hd m r fuel ds =
        .abortError (ds ++ (List.range' (r + 1) (j - r)).map
          (fun i => 2000 * i)) := by
  intro fuel
  induction fuel with
  | zero => intro r ds j hrm hrj hjm _ _; omega
  | succ fuel ih =>
    intro r ds j hrm hrj hjm htrans hfat
    rcases Nat.eq_or_lt_of_le hrj with heq | hlt
    · subst heq
      rw [retryLoop, hfat]
      simp
    · rw [retryLoop, htrans r le_rfl hlt, if_neg (by omega)]
      rw [ih (r + 1) (ds ++ [2000 * (r + 1)]) j (by omega) (by omega) hjm
        (fun i hi₁ hi₂ => htrans i (by omega) hi₂) hfat]
      have hsplit : j - r = (j - (r + 1)) + 1 := by omega
      rw [hsplit, List.range'_succ, List.map_cons]
      simp

theorem retryLoop_exhaust (f : Nat → AttemptResult) (hd : Bool) (m : Nat) :
    ∀ (fuel r : Nat) (ds : List Nat),
      r + fuel = m → r < m →
      (∀ i, r ≤ i → i < m → f i = .transientErr) →
      retryLoop f hd m r fuel ds =
        (if hd then
          RetryOutcome.degradedWarn (ds ++ (List.range' (r + 1) (m - 1 - r)).map
            (fun i => 2000 * i))
        else
          RetryOutcome.walletUnreachable
            (ds ++ (List.range' (r + 1) (m - 1 - r)).map
              (fun i => 2000 * i))) := by
  intro fuel
  induction fuel with
  | zero => intro r ds hrm hr _; omega
  | succ fuel ih =>
    intro r ds hrm hr htrans
    rw [retryLoop, htrans r le_rfl hr]
    by_cases hstop : m ≤ r + 1
    · rw [if_pos hstop]
      have hmr : m - 1 - r = 0 := by omega
      rw [hmr]
      cases hd <;> simp
    · rw [if_neg hstop]
      rw [ih (r + 1) (ds ++ [2000 * (r + 1)]) (by omega) (by omega)
        (fun i hi₁ hi₂ => htrans i (by omega) hi₂)]
      have hsplit : m - 1 - r = (m - 1 - (r + 1)) + 1 := by omega
      rw [hsplit, List.range'_succ, List.map_cons]
      cases hd <;> simp

/-- C6: per batch request, a transient timeout-class error is retried while
the failure count stays below the configured `maxRetries` (default 2), with a
backoff of `attempt * 2000` ms before each re-attempt; when every attempt in
the budget fails transiently, the fetch proceeds degraded with a warning if
any new or cached data exists and fails with the distinguishable
wallet-unreachable error if none does; and a non-transient error aborts
immediately, in particular with no retry and no backoff when it is the first
attempt. -/
theorem fetchRetry_policy (f : Nat → AttemptResult) (hasData : Bool)
    (m : Nat) (hm : 1 ≤ m) :
    (∀ j, j < m → (∀ i, i < j → f i = .transientErr) → f j = .fatalErr →
      runBatchRequest f hasData m =
        .abortError ((List.range' 1 j).map (fun i => 2000 * i))) ∧
    (f 0 = .fatalErr → runBatchRequest f hasData m = .abortError []) ∧
    (∀ j txs, j < m → (∀ i, i < j → f i = .transientErr) → f j = .ok txs →
      runBatchRequest f hasData m =
        .success txs ((List.range' 1 j).map (fun i => 2000 * i))) ∧
    ((∀ i, i < m → f i = .transientErr) → hasData = true →
      runBatchRequest f hasData m =
        .degradedWarn ((List.range' 1 (m - 1)).map (fun i => 2000 * i))) ∧
    ((∀ i, i < m → f i = .transientErr) → hasData = false →
      runBatchRequest f hasData m =
        .walletUnreachable ((List.range' 1 (m - 1)).map (fun i => 2000 * i))) := by
  refine ⟨?_, ?_, ?_, ?_, ?_⟩
  · intro j hj htrans hfat
    have := retryLoop_fatal f hasData m m 0 [] j (by omega) (by omega) hj
      (fun i _ hi₂ => htrans i hi₂) hfat
    simpa using this
  · intro hfat
    have := retryLoop_fatal f hasData m m 0 [] 0 (by omega) le_rfl hm
      (fun i hi₁ hi₂ => by omega) hfat
    simpa using this
  · intro j txs hj htrans hok
    have := retryLoop_ok f hasData m m 0 [] j txs (by omega) (by omega) hj
      (fun i _ hi₂ => htrans i hi₂) hok
    simpa using this
  · intro htrans hhd
    subst hhd
    have := retryLoop_exhaust f true m m 0 [] (by omega) (by omega)
      (fun i _ hi₂ => htrans i hi₂)
    simpa using this
  · intro htrans hhd
    subst hhd
    have := retryLoop_exhaust f false m m 0 [] (by omega) (by omega)
      (fun i _ hi₂ => htrans i hi₂)
    simpa using this

/-! ### Attribution engine (`parseEssaySlug`, src/lib/transformers.js 49-57)

The source builds `new RegExp(escaped + "\\/([a-z0-9-]+)")` where `escaped`
is the site identifier with dots escaped, and takes the first match.  A site
identifier is a domain string (lowercase letters, digits, dots, hyphens), and
all of those characters are literal in the constructed pattern, so matching
the site identifier is literal string matching; the slug capture is the
leftmost-then-greedy run of `[a-z0-9-]` after the identifier and a slash. -/

/-- Character class `[a-z0-9-]`. -/
def isSlugChar (c : Char) : Bool :=
  ('a' ≤ c && c ≤ 'z') || ('0' ≤ c && c ≤ '9') || c == '-'

/-- Characters that can occur in a domain-string site identifier; for these
the escaped-dots regex of the source matches the identifier literally. -/
def isDomainChar (c : Char) : Bool :=
  ('a' ≤ c && c ≤ 'z') || ('0' ≤ c && c ≤ '9') || c == '.' || c == '-'

/-- Literal prefix test for the site-identifier part of the pattern. -/
def startsWithLit : List Char → List Char → Bool
  | [], _ => true
  | _ :: _, [] => false
  | a :: s, b :: d => a == b && startsWithLit s d

/-- Try the pattern `site "/" [a-z0-9-]+` at the head of `d`; on success
return the greedy (maximal) slug capture. -/
def slugAt (site d : List Char) : Option (List Char) :=
  if startsWithLit site d then
    match d.drop site.length with
    | '/' :: rest =>
      let slug := rest.takeWhile isSlugChar
      if slug = [] then none else some slug
    | _ => none
  else none

/-- Scan left to right for the first position where the pattern matches
(JavaScript `String.prototype.match` returns the leftmost match). -/
def findSlug (site : List Char) : List Char → Option (List Char)
  | [] => none
  | c :: rest =>
    match slugAt site (c :: rest) with
    | some s => some s
    | none => findSlug site rest

/-- Model of `parseEssaySlug(description, siteUrl)`: `null` when the
description is absent or falsy, `null` when the site identifier is falsy, and
otherwise the first regex capture. -/
def parseEssaySlug (description : Option String) (siteUrl : String) :
    Option String :=
  match description with
  | none => none
  | some d =>
    if d = "" ∨ siteUrl = "" then none
    else (findSlug siteUrl.toList d.toList).map (fun l => String.mk l)

/-- JavaScript truthiness of a string-or-null value, as used in
`transactions.filter(tx => parseEssaySlug(tx.description))`. -/
def jsTruthyStr : Option String → Bool
  | none => false
  | some s => decide (s ≠ "")

/-! ### Summary construction (`buildSummary`, src/lib/transformers.js 177-207) -/

/-- Model of `satsToUsd(sats, btcPrice)`: `null` on a falsy price (absent or
zero), otherwise `(sats / 100_000_000) * btcPrice`, with JavaScript number
arithmetic idealised over `ℚ`. -/
def satsToUsd (sats : ℚ) (btcPrice : Option ℚ) : Option ℚ :=
  match btcPrice with
  | none => none
  | some p => if p = 0 then none else some (sats / 100000000 * p)

structure SubSummary where
  sats : Nat
  payments : Nat
  usd : Option ℚ
deriving DecidableEq, Repr

structure Summary where
  totalSats : Nat
  totalPayments : Nat
  avgSats : ℤ
  essays : SubSummary
  general : SubSummary
  totalUsd : Option ℚ
  avgUsd : Option ℚ
  btcPrice : Option ℚ
deriving DecidableEq, Repr

/-- Whether `parseEssaySlug` attributes this transaction (the truthiness test
the source applies to the returned slug-or-null). -/
def isAttributed (tx : Tx) (siteUrl : String) : Bool :=
  jsTruthyStr (parseEssaySlug tx.description siteUrl)

/-- Model of `buildSummary(transactions, btcPrice)`: totals via
`reduce((sum, tx) => sum + Math.floor(tx.amount / 1000), 0)`, average via
`Math.round`, essay/general split by truthiness of `parseEssaySlug`, USD
fields through `satsToUsd`. -/
def buildSummary (transactions : List Tx) (siteUrl : String)
    (btcPrice : Option ℚ) : Summary :=
  let totalSats := transactions.foldl (fun s tx => s + txSats tx) 0
  let avgSats : ℤ :=
    if 0 < transactions.length then
      round ((totalSats : ℚ) / (transactions.length : ℚ))
    else 0
  let essayTxs := transactions.filter (fun tx => isAttributed tx siteUrl)
  let generalTxs := transactions.filter (fun tx => !(isAttributed tx siteUrl))
  let essaySats := essayTxs.foldl (fun s tx => s + txSats tx) 0
  let generalSats := generalTxs.foldl (fun s tx => s + txSats tx) 0
  { totalSats := totalSats
    totalPayments := transactions.length
    avgSats := avgSats
    essays := ⟨essaySats, essayTxs.length, satsToUsd (essaySats : ℚ) btcPrice⟩
    general := ⟨generalSats, generalTxs.length,
      satsToUsd (generalSats : ℚ) btcPrice⟩
    totalUsd := satsToUsd (totalSats : ℚ) btcPrice
    avgUsd := satsToUsd (avgSats : ℚ) btcPrice
    btcPrice := btcPrice }

theorem foldl_txSats (l : List Tx) (s : Nat) :
    l.foldl (fun a tx => a + txSats tx) s = s + (l.map txSats).sum := by
  induction l generalizing s with
  | nil => simp
  | cons x xs ih =>
    simp only [List.foldl_cons, List.map_cons, List.sum_cons]
    rw [ih]
    omega

theorem sum_map_filter_partition (l : List Tx) (pr : Tx → Bool)
    (f : Tx → Nat) :
    ((l.filter pr).map f).sum + ((l.filter (fun a => !(pr a))).map f).sum =
      (l.map f).sum := by
  induction l with
  | nil => simp
  | cons x xs ih =>
    by_cases hx : pr x = true
    · rw [List.filter_cons_of_pos hx, List.filter_cons_of_neg (by simp [hx])]
      simp only [List.map_cons, List.sum_cons]
      omega
    · have hx' : pr x = false := by revert hx; cases pr x <;> simp
      rw [List.filter_cons_of_neg hx, List.filter_cons_of_pos (by simp [hx'])]
      simp only [List.map_cons, List.sum_cons]
      omega

theorem length_filter_partition (l : List Tx) (pr : Tx → Bool) :
    (l.filter pr).length + (l.filter (fun a => !(pr a))).length = l.length := by
  induction l with
  | nil => simp
  | cons x xs ih =>
    by_cases hx : pr x = true
    · rw [List.filter_cons_of_pos hx, List.filter_cons_of_neg (by simp [hx])]
      simp only [List.length_cons]
      omega
    · have hx' : pr x = false := by revert hx; cases pr x <;> simp
      rw [List.filter_cons_of_neg hx, List.filter_cons_of_pos (by simp [hx'])]
      simp only [List.length_cons]
      omega

/-! ### Claims C3 and C10 -/

/-- C3 (amended): `buildSummary` computes total sats as the sum of
`Math.floor(amount / 1000)`, the payment count, the rounded average (0 when
the list is empty), and USD fields that are `none` whenever `btcPrice` is
absent or zero (JavaScript falsiness) and `sats / 100_000_000 * btcPrice`
for a nonzero price. -/
theorem buildSummary_spec (txs : List Tx) (site : String) (p : Option ℚ) :
    (buildSummary txs site p).totalSats = (txs.map txSats).sum ∧
    (buildSummary txs site p).totalPayments = txs.length ∧
    (buildSummary txs site p).avgSats =
      (if txs.length = 0 then 0
       else round (((txs.map txSats).sum : ℚ) / (txs.length : ℚ))) ∧
    ((p = none ∨ p = some 0) →
      (buildSummary txs site p).totalUsd = none ∧
      (buildSummary txs site p).avgUsd = none ∧
      (buildSummary txs site p).essays.usd = none ∧
      (buildSummary txs site p).general.usd = none) ∧
    (∀ v : ℚ, p = some v → v ≠ 0 →
      (buildSummary txs site p).totalUsd =
        some (((buildSummary txs site p).totalSats : ℚ) / 100000000 * v) ∧
      (buildSummary txs site p).avgUsd =
        some (((buildSummary txs site p).avgSats : ℚ) / 100000000 * v) ∧
      (buildSummary txs site p).essays.usd =
        some (((buildSummary txs site p).essays.sats : ℚ) / 100000000 * v) ∧
      (buildSummary txs site p).general.usd =
        some (((buildSummary txs site p).general.sats : ℚ) / 100000000 * v)) := by
  have htot : (buildSummary txs site p).totalSats = (txs.map txSats).sum := by
    show txs.foldl (fun s tx => s + txSats tx) 0 = (txs.map txSats).sum
    rw [foldl_txSats]
    omega
  refine ⟨htot, rfl, ?_, ?_, ?_⟩
  · show (if 0 < txs.length then
        round (((txs.foldl (fun s tx => s + txSats tx) 0 : Nat) : ℚ) /
          (txs.length : ℚ))
      else 0) = _
    rw [foldl_txSats]
    rcases Nat.eq_zero_or_pos txs.length with h0 | h0
    · rw [if_neg (by omega), if_pos h0]
    · rw [if_pos h0, if_neg (by omega)]
      simp
  · rintro (hp | hp) <;> subst hp <;>
      exact ⟨rfl, rfl, rfl, rfl⟩
  · intro v hp hv
    subst hp
    refine ⟨?_, ?_, ?_, ?_⟩ <;>
      · show satsToUsd _ (some v) = _
        rw [satsToUsd, if_neg hv]
        rfl

/-- C3 counterexample: the claim demands that for any non-null `btcPrice` the
USD fields carry `sats / 100_000_000 * btcPrice`, but a price of 0 is falsy
in JavaScript, so the code returns `null` instead of the computed 0. -/
theorem buildSummary_zero_price_counterexample :
    (buildSummary [] "example.com" (some 0)).totalUsd = none ∧
    (buildSummary [] "example.com" (some 0)).totalUsd ≠
      some (((buildSummary [] "example.com" (some 0)).totalSats : ℚ)
        / 100000000 * 0) := by
  constructor
  · rfl
  · intro h
    exact Option.noConfusion (h.symm.trans (rfl : _ = none))

/-- C10: the essays/general split of `buildSummary` partitions the input
exactly: attributed and unattributed sats add up to `totalSats`, and the two
payment counts add up to `totalPayments`, for every transaction list, site
identifier and price. -/
theorem buildSummary_partition (txs : List Tx) (site : String)
    (p : Option ℚ) :
    (buildSummary txs site p).essays.sats +
        (buildSummary txs site p).general.sats =
      (buildSummary txs site p).totalSats ∧
    (buildSummary txs site p).essays.payments +
        (buildSummary txs site p).general.payments =
      (buildSummary txs site p).totalPayments := by
  constructor
  · show (txs.filter (fun tx => isAttributed tx site)).foldl
        (fun s tx => s + txSats tx) 0 +
      (txs.filter (fun tx => !(isAttributed tx site))).foldl
        (fun s tx => s + txSats tx) 0 =
      txs.foldl (fun s tx => s + txSats tx) 0
    rw [foldl_txSats, foldl_txSats, foldl_txSats]
    simpa using sum_map_filter_partition txs (fun tx => isAttributed tx site)
      txSats
  · show (txs.filter (fun tx => isAttributed tx site)).length +
      (txs.filter (fun tx => !(isAttributed tx site))).length = txs.length
    exact length_filter_partition txs (fun tx => isAttributed tx site)

/-! ### Claim C4: slug attribution -/

/-- Declarative reading of the matching rule of §4.1 of the spec: at position
`i` of the description, the site identifier occurs followed by a slash and a
nonempty slug over `[a-z0-9-]`. -/
def specOccursAt (site d : List Char) (i : Nat) : Prop :=
  ∃ slug rest, slug ≠ [] ∧ (∀ c ∈ slug, isSlugChar c = true) ∧
    d.drop i = site ++ '/' :: (slug ++ rest)

/-- The greedy capture at position `i`: the maximal run of slug characters
after the site identifier and the slash. -/
def captureAt (site d : List Char) (i : Nat) : List Char :=
  (d.drop (i + site.length + 1)).takeWhile isSlugChar

theorem startsWithLit_iff (s : List Char) :
    ∀ d : List Char, startsWithLit s d = true ↔ ∃ t, d = s ++ t := by
  induction s with
  | nil => intro d; simp [startsWithLit]
  | cons a s ih =>
    intro d
    cases d with
    | nil =>
      simp only [startsWithLit]
      constructor
      · intro h; exact Bool.noConfusion h
      · rintro ⟨t, ht⟩; exact List.noConfusion ht
    | cons b d' =>
      simp only [startsWithLit, Bool.and_eq_true, beq_iff_eq]
      rw [ih d']
      constructor
      · rintro ⟨rfl, t, rfl⟩
        exact ⟨t, rfl⟩
      · rintro ⟨t, ht⟩
        rw [List.cons_append] at ht
        injection ht with h₁ h₂
        exact ⟨h₁.symm, t, h₂⟩

theorem takeWhile_ne_nil_iff (l : List Char) :
    (∃ slug rest, slug ≠ [] ∧ (∀ c ∈ slug, isSlugChar c = true) ∧
      l = slug ++ rest) ↔ l.takeWhile isSlugChar ≠ [] := by
  constructor
  · rintro ⟨slug, rest, hne, hall, rfl⟩
    cases slug with
    | nil => exact absurd rfl hne
    | cons c slug' =>
      rw [List.cons_append, List.takeWhile_cons_of_pos (hall c (by simp))]
      exact List.noConfusion
  · intro h
    cases l with
    | nil => simp at h
    | cons c l' =>
      by_cases hc : isSlugChar c = true
      · exact ⟨[c], l', by simp, by simpa using hc, by simp⟩
      · rw [List.takeWhile_cons_of_neg hc] at h
        exact absurd rfl h

theorem slugAt_eq_some_iff (site d : List Char) (s : List Char) :
    slugAt site d = some s ↔
      (specOccursAt site d 0 ∧ s = captureAt site d 0) := by
  by_cases hpre : startsWithLit site d = true
  · rcases (startsWithLit_iff site d).mp hpre with ⟨t, rfl⟩
    have hdrop : (site ++ t).drop site.length = t := by
      simp
    have hspec : specOccursAt site (site ++ t) 0 ↔
        ∃ slug rest, slug ≠ [] ∧ (∀ c ∈ slug, isSlugChar c = true) ∧
          t = '/' :: (slug ++ rest) := by
      unfold specOccursAt
      simp only [List.drop_zero]
      constructor
      · rintro ⟨slug, rest, h₁, h₂, h₃⟩
        exact ⟨slug, rest, h₁, h₂, List.append_cancel_left h₃⟩
      · rintro ⟨slug, rest, h₁, h₂, h₃⟩
        exact ⟨slug, rest, h₁, h₂, by rw [h₃]⟩
    cases t with
    | nil =>
      rw [slugAt, if_pos hpre, hdrop]
      constructor
      · intro h; exact Option.noConfusion h
      · rintro ⟨hocc, -⟩
        rcases hspec.mp hocc with ⟨slug, rest, -, -, h₃⟩
        exact List.noConfusion h₃
    | cons c t' =>
      by_cases hc : c = '/'
      · subst hc
        rw [slugAt, if_pos hpre, hdrop]
        have hcap : captureAt site (site ++ '/' :: t') 0 =
            t'.takeWhile isSlugChar := by
          unfold captureAt
          rw [Nat.zero_add, ← List.drop_drop 1 site.length, hdrop]
          rfl
        simp only
        by_cases hsl : t'.takeWhile isSlugChar = []
        · rw [if_pos hsl]
          constructor
          · intro h; exact Option.noConfusion h
          · rintro ⟨hocc, -⟩
            rcases hspec.mp hocc with ⟨slug, rest, h₁, h₂, h₃⟩
            injection h₃ with _ h₄
            exact (((takeWhile_ne_nil_iff t').mp
              ⟨slug, rest, h₁, h₂, h₄⟩) hsl).elim
        · rw [if_neg hsl]
          constructor
          · intro h
            injection h with h
            refine ⟨hspec.mpr ?_, by rw [hcap, ← h]⟩
            rcases (takeWhile_ne_nil_iff t').mpr hsl with ⟨slug, rest, h₁, h₂, h₃⟩
            exact ⟨slug, rest, h₁, h₂, by rw [h₃]⟩
          · rintro ⟨-, hs⟩
            rw [hs, hcap]
      · rw [slugAt, if_pos hpre, hdrop]
        constructor
        · intro h
          split at h
          · rename_i heq
            injection heq with h₁ h₂
            exact absurd h₁ hc
          · exact Option.noConfusion h
        · rintro ⟨hocc, -⟩
          rcases hspec.mp hocc with ⟨slug, rest, -, -, h₃⟩
          injection h₃ with h₄ h₅
          exact absurd h₄ hc
  · rw [slugAt, if_neg hpre]
    constructor
    · intro h; exact Option.noConfusion h
    · rintro ⟨⟨slug, rest, -, -, h₃⟩, -⟩
      rw [List.drop_zero] at h₃
      exact absurd ((startsWithLit_iff site d).mpr ⟨_, h₃⟩) hpre

theorem slugAt_eq_none_iff (site d : List Char) :
    slugAt site d = none ↔ ¬ specOccursAt site d 0 := by
  constructor
  · intro h hocc
    have hsome := (slugAt_eq_some_iff site d (captureAt site d 0)).mpr ⟨hocc, rfl⟩
    rw [h] at hsome
    exact Option.noConfusion hsome
  · intro h
    cases hs : slugAt site d with
    | none => rfl
    | some s => exact absurd ((slugAt_eq_some_iff site d s).mp hs).1 h

theorem specOccursAt_cons (site : List Char) (c : Char) (d : List Char)
    (i : Nat) : specOccursAt site (c :: d) (i + 1) ↔ specOccursAt site d i := by
  unfold specOccursAt
  rw [List.drop_succ_cons]

theorem findSlug_cons_of_some {site : List Char} {c : Char} {d s : List Char}
    (h : slugAt site (c :: d) = some s) : findSlug site (c :: d) = some s := by
  simp only [findSlug, h]

theorem findSlug_cons_of_none {site : List Char} {c : Char} {d : List Char}
    (h : slugAt site (c :: d) = none) :
    findSlug site (c :: d) = findSlug site d := by
  simp only [findSlug, h]

theorem findSlug_eq_none_iff (site : List Char) :
    ∀ d : List Char,
      findSlug site d = none ↔ ∀ i, ¬ specOccursAt site d i := by
  intro d
  induction d with
  | nil =>
    constructor
    · intro _ i
      rintro ⟨slug, rest, -, -, h₃⟩
      rw [List.drop_nil] at h₃
      simp at h₃
    · intro _; rfl
  | cons c d ih =>
    constructor
    · intro h i
      cases hs : slugAt site (c :: d) with
      | some s =>
        rw [findSlug_cons_of_some hs] at h
        exact Option.noConfusion h
      | none =>
        rw [findSlug_cons_of_none hs] at h
        cases i with
        | zero => exact (slugAt_eq_none_iff site (c :: d)).mp hs
        | succ i =>
          rw [specOccursAt_cons]
          exact (ih.mp h) i
    · intro h
      have h0 : slugAt site (c :: d) = none :=
        (slugAt_eq_none_iff site (c :: d)).mpr (h 0)
      rw [findSlug_cons_of_none h0]
      exact ih.mpr fun i hocc =>
        h (i + 1) ((specOccursAt_cons site c d i).mpr hocc)

theorem findSlug_eq_some_of_least (site : List Char) :
    ∀ (d : List Char) (i : Nat), specOccursAt site d i →
      (∀ j, j < i → ¬ specOccursAt site d j) →
      findSlug site d = some (captureAt site d i) := by
  intro d
  induction d with
  | nil =>
    intro i hocc _
    rcases hocc with ⟨slug, rest, -, -, h₃⟩
    rw [List.drop_nil] at h₃
    simp at h₃
  | cons c d ih =>
    intro i hocc hleast
    cases i with
    | zero =>
      exact findSlug_cons_of_some
        ((slugAt_eq_some_iff site (c :: d) _).mpr ⟨hocc, rfl⟩)
    | succ i =>
      have h0 : slugAt site (c :: d) = none :=
        (slugAt_eq_none_iff site (c :: d)).mpr (hleast 0 (Nat.succ_pos i))
      rw [findSlug_cons_of_none h0]
      have hcap : captureAt site (c :: d) (i + 1) = captureAt site d i := by
        unfold captureAt
        rw [show i + 1 + site.length + 1 = (i + site.length + 1) + 1 by ring,
          List.drop_succ_cons]
      rw [hcap]
      exact ih i ((specOccursAt_cons site c d i).mp hocc)
        (fun j hj hocc' =>
          hleast (j + 1) (by omega) ((specOccursAt_cons site c d j).mpr hocc'))

/-- C4: for a nonempty domain-string site identifier, slug attribution
returns `none` for an absent description; returns the greedy capture at the
first (leftmost) occurrence of the site identifier followed by `/` and a
nonempty `[a-z0-9-]` slug; returns `none` when no such occurrence exists; and
in particular satisfies the three examples of the spec. -/
theorem parseEssaySlug_spec (site : String) (hsite : site ≠ "")
    (_hdomain : ∀ c ∈ site.toList, isDomainChar c = true) :
    parseEssaySlug none site = none ∧
    (∀ d : String, (∀ i, ¬ specOccursAt site.toList d.toList i) →
      parseEssaySlug (some d) site = none) ∧
    (∀ (d : String) (i : Nat), specOccursAt site.toList d.toList i →
      (∀ j, j < i → ¬ specOccursAt site.toList d.toList j) →
      parseEssaySlug (some d) site =
        some (String.mk (captureAt site.toList d.toList i))) ∧
    parseEssaySlug (some "example.com/my-post") "example.com" =
      some "my-post" ∧
    parseEssaySlug (some "example.com") "example.com" = none ∧
    parseEssaySlug (some "other.com/x") "example.com" = none := by
  refine ⟨rfl, ?_, ?_, by decide, by decide, by decide⟩
  · intro d hnone
    by_cases hd : d = ""
    · rw [parseEssaySlug, if_pos (Or.inl hd)]
    · rw [parseEssaySlug, if_neg (by simp [hd, hsite])]
      rw [(findSlug_eq_none_iff site.toList d.toList).mpr hnone]
      rfl
  · intro d i hocc hleast
    have hd : d ≠ "" := by
      intro hd
      rcases hocc with ⟨slug, rest, -, -, h₃⟩
      subst hd
      rw [show ("" : String).toList = [] from rfl, List.drop_nil] at h₃
      simp at h₃
    rw [parseEssaySlug, if_neg (by simp [hd, hsite])]
    rw [findSlug_eq_some_of_least site.toList d.toList i hocc hleast]
    rfl

/-! ### Calendar model for `aggregateByPeriod`

`aggregateByPeriod` (src/lib/transformers.js 139-169) converts the effective
Unix timestamp to a `Date` and derives a period key string.  With the process
time zone UTC, `getDay`/`getDate`/`setDate`/`getFullYear`/`getMonth` and
`toISOString` all act on the same civil calendar, and `setDate` moves the
absolute time by whole days, so the model works at epoch-day granularity:
`epochDay = ⌊ts / 86400⌋`, weekday `(day + 4) % 7` (0 = Sunday, since day 0,
1970-01-01, was a Thursday), and the proleptic-Gregorian civil date is
computed by the standard days-from-civil inverse algorithm. -/

/-- Civil (year, month, day) from days since the Unix epoch. -/
def civilFromDays (z : Int) : Int × Nat × Nat :=
  let zz := z + 719468
  let era := zz / 146097
  let doe := (zz - era * 146097).toNat
  let yoe := (doe - doe / 1460 + doe / 36524 - doe / 146096) / 365
  let y := (yoe : Int) + era * 400
  let doy := doe - (365 * yoe + yoe / 4 - yoe / 100)
  let mp := (5 * doy + 2) / 153
  let d := doy - (153 * mp + 2) / 5 + 1
  let m := if mp < 10 then mp + 3 else mp - 9
  (if m ≤ 2 then y + 1 else y, m, d)

/-- Zero-pad a numeral string to `w` characters. -/
def zeroPad (w : Nat) (s : String) : String :=
  if s.length < w then String.mk (List.replicate (w - s.length) '0') ++ s
  else s

/-- The date part of `Date.prototype.toISOString`, `YYYY-MM-DD`. -/
def isoDateString (z : Int) : String :=
  let c := civilFromDays z
  zeroPad 4 (toString c.1) ++ "-" ++ zeroPad 2 (toString c.2.1) ++ "-" ++
    zeroPad 2 (toString c.2.2)

/-- The monthly key `` `${date.getFullYear()}-${String(month).padStart(2,'0')}` ``. -/
def monthKeyString (z : Int) : String :=
  let c := civilFromDays z
  toString c.1 ++ "-" ++ zeroPad 2 (toString c.2.1)

/-- Day index since the epoch of a Unix-seconds timestamp. -/
def epochDay (ts : Nat) : Int := (ts / 86400 : Nat)

/-- JavaScript `Date.prototype.getDay` (0 = Sunday) of an epoch day. -/
def weekday (z : Int) : Int := (z + 4) % 7

/-- Epoch day of the key produced by the weekly branch
`d.setDate(d.getDate() - d.getDay() + 1)`. -/
def weeklyKeyDay (z : Int) : Int := z + 1 - weekday z

/-- Epoch day of the Monday starting the ISO week containing `z`.
Modelled from the spec: "weekly key = ISO date of that week's Monday (week
start is Monday, not Sunday)" — this definition is the spec side of the
comparison, not part of the source. -/
def isoWeekMonday (z : Int) : Int := z - (weekday z + 6) % 7

/-- Period key for a timestamp (`daily`, `weekly`, anything else monthly,
mirroring the if/else chain of the source). -/
def periodKeyOf (period : String) (ts : Nat) : String :=
  if period = "daily" then isoDateString (epochDay ts)
  else if period = "weekly" then isoDateString (weeklyKeyDay (epochDay ts))
  else monthKeyString (epochDay ts)

structure PeriodAcc where
  sats : Nat
  count : Nat
deriving DecidableEq, Repr

/-- JavaScript `Map` update `byPeriod.set(key, existing)` where
`existing = byPeriod.get(key) || {sats: 0, count: 0}`: in-place update keeps
insertion order, a fresh key is appended. -/
def upsertPeriod (k : String) (satsAdd : Nat) :
    List (String × PeriodAcc) → List (String × PeriodAcc)
  | [] => [(k, ⟨satsAdd, 1⟩)]
  | (k', v) :: rest =>
    if k' = k then (k', ⟨v.sats + satsAdd, v.count + 1⟩) :: rest
    else (k', v) :: upsertPeriod k satsAdd rest

/-- The grouping loop of `aggregateByPeriod` in insertion order; transactions
without any timestamp are skipped. -/
def aggregateByPeriodRaw (txs : List Tx) (period : String) :
    List (String × PeriodAcc) :=
  txs.foldl
    (fun acc tx =>
      if effTime tx = 0 then acc
      else upsertPeriod (periodKeyOf period (effTime tx)) (txSats tx) acc)
    []

/-- Code-point lexicographic strict order on character lists, the order
`localeCompare` induces on the all-ASCII, equal-format period keys. -/
def charsLt : List Char → List Char → Bool
  | [], [] => false
  | [], _ :: _ => true
  | _ :: _, [] => false
  | a :: as, b :: bs =>
    if a < b then true else if b < a then false else charsLt as bs

/-- String comparison `a <= b` derived from `charsLt`. -/
def strLe (a b : String) : Bool := !(charsLt b.toList a.toList)

/-- Model of `aggregateByPeriod`: group, then sort the entries by key
descending (`sort((a, b) => b[0].localeCompare(a[0]))`). -/
def aggregateByPeriod (txs : List Tx) (period : String) :
    List (String × PeriodAcc) :=
  (aggregateByPeriodRaw txs period).insertionSort
    (fun a b => strLe b.1 a.1 = true)

/-! ### Claim C5: weekly keys -/

theorem weekday_weeklyKeyDay (z : Int) : weekday (weeklyKeyDay z) = 1 := by
  simp only [weekday, weeklyKeyDay]
  omega

theorem weeklyKeyDay_not_sunday {z : Int} (h : weekday z ≠ 0) :
    weeklyKeyDay z = isoWeekMonday z := by
  unfold weekday at h
  unfold weeklyKeyDay isoWeekMonday weekday
  omega

theorem weeklyKeyDay_sunday {z : Int} (h : weekday z = 0) :
    weeklyKeyDay z = isoWeekMonday z + 7 := by
  unfold weekday at h
  unfold weeklyKeyDay isoWeekMonday weekday
  omega

theorem upsertPeriod_keys (k : String) (s : Nat) :
    ∀ (l : List (String × PeriodAcc)) (x : String),
      x ∈ (upsertPeriod k s l).map Prod.fst →
      x = k ∨ x ∈ l.map Prod.fst := by
  intro l
  induction l with
  | nil =>
    intro x hx
    simp [upsertPeriod] at hx
    exact Or.inl hx
  | cons e rest ih =>
    rcases e with ⟨k', v⟩
    intro x hx
    by_cases hk : k' = k
    · rw [upsertPeriod, if_pos hk] at hx
      simp only [List.map_cons, List.mem_cons] at hx
      rcases hx with hx | hx
      · exact Or.inl (hx.trans hk)
      · exact Or.inr (by simp [hx])
    · rw [upsertPeriod, if_neg hk] at hx
      simp only [List.map_cons, List.mem_cons] at hx
      rcases hx with hx | hx
      · exact Or.inr (by simp [hx])
      · rcases ih x (by simpa using hx) with h | h
        · exact Or.inl h
        · exact Or.inr (by simp [h])

theorem aggregateByPeriodRaw_keys (p : String) :
    ∀ (l : List Tx) (acc : List (String × PeriodAcc)) (x : String),
      x ∈ (l.foldl
        (fun acc tx =>
          if effTime tx = 0 then acc
          else upsertPeriod (periodKeyOf p (effTime tx)) (txSats tx) acc)
        acc).map Prod.fst →
      x ∈ acc.map Prod.fst ∨
        ∃ tx ∈ l, effTime tx ≠ 0 ∧ x = periodKeyOf p (effTime tx) := by
  intro l
  induction l with
  | nil => intro acc x hx; exact Or.inl hx
  | cons tx rest ih =>
    intro acc x hx
    simp only [List.foldl_cons] at hx
    by_cases h0 : effTime tx = 0
    · rw [if_pos h0] at hx
      rcases ih acc x hx with h | ⟨u, hu, h₁, h₂⟩
      · exact Or.inl h
      · exact Or.inr ⟨u, List.mem_cons_of_mem _ hu, h₁, h₂⟩
    · rw [if_neg h0] at hx
      rcases ih _ x hx with h | ⟨u, hu, h₁, h₂⟩
      · rcases upsertPeriod_keys _ _ acc x h with h | h
        · exact Or.inr ⟨tx, by simp, h0, h⟩
        · exact Or.inl h
      · exact Or.inr ⟨u, List.mem_cons_of_mem _ hu, h₁, h₂⟩

/-- C5 (amended): every key the weekly aggregation produces is the ISO date
of an epoch day that is a Monday; the key assigned to a transaction is the
ISO date of `day - getDay + 1`, which is the Monday starting that
transaction's ISO week for Monday-through-Saturday timestamps but the Monday
of the following week for Sunday timestamps (the `getDay()` Sunday-is-0
convention makes `- getDay + 1` move a Sunday forward one day). -/
theorem aggregateByPeriod_weekly_mondays (txs : List Tx) :
    (∀ e ∈ aggregateByPeriod txs "weekly",
      ∃ z : Int, weekday z = 1 ∧ e.1 = isoDateString z) ∧
    (∀ tx ∈ txs, effTime tx ≠ 0 →
      periodKeyOf "weekly" (effTime tx) =
        isoDateString (weeklyKeyDay (epochDay (effTime tx))) ∧
      (weekday (epochDay (effTime tx)) ≠ 0 →
        weeklyKeyDay (epochDay (effTime tx)) =
          isoWeekMonday (epochDay (effTime tx))) ∧
      (weekday (epochDay (effTime tx)) = 0 →
        weeklyKeyDay (epochDay (effTime tx)) =
          isoWeekMonday (epochDay (effTime tx)) + 7)) := by
  constructor
  · intro e he
    have hraw : e ∈ aggregateByPeriodRaw txs "weekly" :=
      (List.perm_insertionSort _ _).mem_iff.mp he
    have hkey := aggregateByPeriodRaw_keys "weekly" txs [] e.1
      (by simpa using List.mem_map_of_mem Prod.fst hraw)
    rcases hkey with h | ⟨tx, -, -, h₂⟩
    · simp at h
    · refine ⟨weeklyKeyDay (epochDay (effTime tx)), weekday_weeklyKeyDay _, ?_⟩
      rw [h₂]
      rfl
  · intro tx _ _
    exact ⟨rfl, fun h => weeklyKeyDay_not_sunday h,
      fun h => weeklyKeyDay_sunday h⟩

/-- C5 counterexample: 2023-01-01 (Unix 1672531200) is a Sunday; the Monday
starting its ISO week is 2022-12-26, but the weekly aggregation files it
under "2023-01-02", the following Monday. -/
theorem aggregateByPeriod_weekly_sunday_counterexample :
    (aggregateByPeriod [⟨"h", 5000, 1672531200, 0, none⟩] "weekly").map
        Prod.fst = ["2023-01-02"] ∧
    weekday (epochDay 1672531200) = 0 ∧
    isoDateString (isoWeekMonday (epochDay 1672531200)) = "2022-12-26" ∧
    ("2023-01-02" : String) ≠ "2022-12-26" := by
  refine ⟨by decide, by decide, by decide, by decide⟩

/-! ### Claim C7: period comparison -/

theorem charsLt_asymm :
    ∀ a b : List Char, charsLt a b = true → charsLt b a = false := by
  intro a
  induction a with
  | nil =>
    intro b h
    cases b with
    | nil => exact absurd h (by simp [charsLt])
    | cons c bs => rfl
  | cons c as ih =>
    intro b h
    cases b with
    | nil => exact absurd h (by simp [charsLt])
    | cons d bs =>
      rw [charsLt] at h ⊢
      by_cases hcd : c < d
      · rw [if_neg (lt_asymm hcd), if_pos hcd]
      · rw [if_neg hcd] at h
        by_cases hdc : d < c
        · exact absurd h (by rw [if_pos hdc]; exact Bool.noConfusion)
        · rw [if_neg hdc] at h
          rw [if_neg hdc, if_neg hcd]
          exact ih bs h

theorem charsLt_trans :
    ∀ a b c : List Char,
      charsLt a b = true → charsLt b c = true → charsLt a c = true := by
  intro a
  induction a with
  | nil =>
    intro b c hab hbc
    cases b with
    | nil => exact absurd hab (by simp [charsLt])
    | cons d bs =>
      cases c with
      | nil => exact absurd hbc (by simp [charsLt])
      | cons e cs => simp [charsLt]
  | cons x as ih =>
    intro b c hab hbc
    cases b with
    | nil => exact absurd hab (by simp [charsLt])
    | cons d bs =>
      cases c with
      | nil => exact absurd hbc (by simp [charsLt])
      | cons e cs =>
        rw [charsLt] at hab hbc ⊢
        by_cases hxd : x < d
        · by_cases hde : d < e
          · rw [if_pos (lt_trans hxd hde)]
          · by_cases hed : e < d
            · rw [if_neg hde, if_pos hed] at hbc
              exact absurd hbc Bool.noConfusion
            · have hde' : d = e := le_antisymm (not_lt.mp hed) (not_lt.mp hde)
              rw [if_pos (hde' ▸ hxd)]
        · by_cases hdx : d < x
          · rw [if_neg hxd, if_pos hdx] at hab
            exact absurd hab Bool.noConfusion
          · have hxd' : x = d := le_antisymm (not_lt.mp hdx) (not_lt.mp hxd)
            rw [if_neg hxd, if_neg hdx] at hab
            subst hxd'
            by_cases hde : x < e
            · rw [if_pos hde]
            · by_cases hed : e < x
              · rw [if_neg hde, if_pos hed] at hbc
                exact absurd hbc Bool.noConfusion
              · rw [if_neg hde, if_neg hed] at hbc ⊢
                exact ih bs cs hab hbc

theorem charsLt_conn :
    ∀ a b : List Char, charsLt a b = false → charsLt b a = false → a = b := by
  intro a
  induction a with
  | nil =>
    intro b hab _
    cases b with
    | nil => rfl
    | cons d bs => exact absurd hab (by simp [charsLt])
  | cons x as ih =>
    intro b hab hba
    cases b with
    | nil => exact absurd hba (by simp [charsLt])
    | cons d bs =>
      rw [charsLt] at hab hba
      by_cases hxd : x < d
      · rw [if_pos hxd] at hab
        exact absurd hab Bool.noConfusion
      · by_cases hdx : d < x
        · rw [if_pos hdx] at hba
          exact absurd hba Bool.noConfusion
        · have hxd' : x = d := le_antisymm (not_lt.mp hdx) (not_lt.mp hxd)
          rw [if_neg hxd, if_neg hdx] at hab
          rw [if_neg hdx, if_neg hxd] at hba
          rw [hxd', ih bs hab hba]

theorem strLe_total (a b : String) : strLe a b = true ∨ strLe b a = true := by
  by_cases h : charsLt a.toList b.toList = true
  · left
    unfold strLe
    rw [charsLt_asymm _ _ h]
    rfl
  · right
    have h' : charsLt a.toList b.toList = false := by
      revert h; cases charsLt a.toList b.toList <;> simp
    unfold strLe
    rw [h']
    rfl

theorem strLe_trans {a b c : String} (hab : strLe a b = true)
    (hbc : strLe b c = true) : strLe a c = true := by
  have hab' : charsLt b.toList a.toList = false := by
    revert hab; unfold strLe; cases charsLt b.toList a.toList <;> simp
  have hbc' : charsLt c.toList b.toList = false := by
    revert hbc; unfold strLe; cases charsLt c.toList b.toList <;> simp
  unfold strLe
  suffices h : charsLt c.toList a.toList = false by rw [h]; rfl
  cases hbl : charsLt b.toList c.toList with
  | true =>
    cases hca : charsLt c.toList a.toList with
    | false => rfl
    | true =>
      have hba := charsLt_trans _ _ _ hbl hca
      rw [hba] at hab'
      exact Bool.noConfusion hab'
  | false =>
    have heq : b.toList = c.toList := charsLt_conn _ _ hbl hbc'
    rw [← heq]
    exact hab'

instance : IsTotal (String × PeriodAcc) (fun a b => strLe b.1 a.1 = true) :=
  ⟨fun a b => strLe_total b.1 a.1⟩

instance : IsTrans (String × PeriodAcc) (fun a b => strLe b.1 a.1 = true) :=
  ⟨fun _ _ _ h₁ h₂ => strLe_trans h₂ h₁⟩

theorem aggregateByPeriod_sorted (txs : List Tx) (period : String) :
    (aggregateByPeriod txs period).Pairwise
      (fun a b => strLe b.1 a.1 = true) :=
  List.sorted_insertionSort _ _

structure PeriodEntry where
  period : String
  sats : Nat
  payments : Nat
deriving DecidableEq, Repr

structure ComparisonDelta where
  sats : Int
  satsPercent : Option ℚ
  payments : Int
  paymentsPercent : Option ℚ
deriving DecidableEq, Repr

structure Comparison where
  current : PeriodEntry
  previous : PeriodEntry
  delta : ComparisonDelta
deriving DecidableEq, Repr

/-- Model of the comparison block of `buildJsonReport`
(src/lib/formatters/json.js 64-84): take the first two entries of
`aggregateByPeriod` (most recent first); if fewer than two periods exist no
comparison is produced; percent changes are `null` when the previous value is
not positive. -/
def buildComparison (txs : List Tx) (period : String) : Option Comparison :=
  match aggregateByPeriod txs period with
  | (k1, v1) :: (k2, v2) :: _ =>
    some
      { current := ⟨k1, v1.sats, v1.count⟩
        previous := ⟨k2, v2.sats, v2.count⟩
        delta :=
          { sats := (v1.sats : Int) - (v2.sats : Int)
            satsPercent :=
              if 0 < v2.sats then
                some (((v1.sats : ℚ) - (v2.sats : ℚ)) / (v2.sats : ℚ) * 100)
              else none
            payments := (v1.count : Int) - (v2.count : Int)
            paymentsPercent :=
              if 0 < v2.count then
                some (((v1.count : ℚ) - (v2.count : ℚ)) / (v2.count : ℚ) * 100)
              else none } }
  | _ => none

/-- C7: with fewer than two period buckets the comparison is the explicit
"insufficient data" result `none` (total function, no crash); with at least
two buckets it compares exactly the first two entries of the
descending-sorted aggregation — the two most recent periods, every remaining
bucket having a key at most the second one's — computing the sats and count
deltas, and percent change `(current - previous) / previous * 100` with the
percent `none` when the previous value is 0. -/
theorem buildComparison_spec (txs : List Tx) (period : String) :
    ((aggregateByPeriod txs period).length < 2 →
      buildComparison txs period = none) ∧
    (∀ k1 v1 k2 v2 rest,
      aggregateByPeriod txs period = (k1, v1) :: (k2, v2) :: rest →
      buildComparison txs period =
        some
          { current := ⟨k1, v1.sats, v1.count⟩
            previous := ⟨k2, v2.sats, v2.count⟩
            delta :=
              { sats := (v1.sats : Int) - (v2.sats : Int)
                satsPercent :=
                  if 0 < v2.sats then
                    some (((v1.sats : ℚ) - (v2.sats : ℚ)) /
                      (v2.sats : ℚ) * 100)
                  else none
                payments := (v1.count : Int) - (v2.count : Int)
                paymentsPercent :=
                  if 0 < v2.count then
                    some (((v1.count : ℚ) - (v2.count : ℚ)) /
                      (v2.count : ℚ) * 100)
                  else none } } ∧
      (v2.sats = 0 →
        (buildComparison txs period).map (fun c => c.delta.satsPercent) =
          some none) ∧
      (v2.count = 0 →
        (buildComparison txs period).map (fun c => c.delta.paymentsPercent) =
          some none) ∧
      strLe k2 k1 = true ∧ (∀ e ∈ rest, strLe e.1 k2 = true)) := by
  constructor
  · intro hlen
    unfold buildComparison
    cases hagg : aggregateByPeriod txs period with
    | nil => rfl
    | cons e l =>
      cases l with
      | nil =>
        rcases e with ⟨k, v⟩
        rfl
      | cons f l' =>
        rw [hagg] at hlen
        simp at hlen
        omega
  · intro k1 v1 k2 v2 rest hagg
    have hcomp : buildComparison txs period =
        some
          { current := ⟨k1, v1.sats, v1.count⟩
            previous := ⟨k2, v2.sats, v2.count⟩
            delta :=
              { sats := (v1.sats : Int) - (v2.sats : Int)
                satsPercent :=
                  if 0 < v2.sats then
                    some (((v1.sats : ℚ) - (v2.sats : ℚ)) /
                      (v2.sats : ℚ) * 100)
                  else none
                payments := (v1.count : Int) - (v2.count : Int)
                paymentsPercent :=
                  if 0 < v2.count then
                    some (((v1.count : ℚ) - (v2.count : ℚ)) /
                      (v2.count : ℚ) * 100)
                  else none } } := by
      unfold buildComparison
      rw [hagg]
    have hsorted := aggregateByPeriod_sorted txs period
    rw [hagg] at hsorted
    rcases List.pairwise_cons.mp hsorted with ⟨h₁, hsorted₂⟩
    rcases List.pairwise_cons.mp hsorted₂ with ⟨h₂, -⟩
    refine ⟨hcomp, ?_, ?_, ?_, ?_⟩
    · intro h0
      rw [hcomp]
      simp [h0]
    · intro h0
      rw [hcomp]
      simp [h0]
    · exact h₁ (k2, v2) (by simp)
    · intro e he
      exact h₂ e he

/-! ### Concrete witnesses -/

theorem fetchTransactions_dedup_firstWins_witness :
    ((fetchTransactions
        [⟨"b", 2500, 1672617600, 0, some "example.com/my-post"⟩]
        [⟨"a", 5000, 1672531200, 0, none⟩] 10 20).map Tx.payment_hash).Nodup ∧
    ((fetchLoop [⟨"b", 2500, 1672617600, 0, some "example.com/my-post"⟩] 10
        (latestCached [⟨"a", 5000, 1672531200, 0, none⟩]) 20 0 []).newTxs ++
        ([⟨"a", 5000, 1672531200, 0, none⟩] : List Tx)).find?
      (fun u : Tx => u.payment_hash ==
        (⟨"b", 2500, 1672617600, 0, some "example.com/my-post"⟩ :
          Tx).payment_hash) =
      some ⟨"b", 2500, 1672617600, 0, some "example.com/my-post"⟩ := by
  have h := fetchTransactions_dedup_firstWins
    [⟨"b", 2500, 1672617600, 0, some "example.com/my-post"⟩]
    [⟨"a", 5000, 1672531200, 0, none⟩] 10 20
  exact ⟨h.1, h.2.1 ⟨"b", 2500, 1672617600, 0, some "example.com/my-post"⟩
    (by decide)⟩

theorem fetchTransactions_idempotent_witness :
    fetchTransactions
        [⟨"b", 2500, 1672617600, 0, some "example.com/my-post"⟩]
        (fetchTransactions
          [⟨"b", 2500, 1672617600, 0, some "example.com/my-post"⟩]
          [⟨"a", 5000, 1672531200, 0, none⟩] 10 20) 10 20
      = fetchTransactions
          [⟨"b", 2500, 1672617600, 0, some "example.com/my-post"⟩]
          [⟨"a", 5000, 1672531200, 0, none⟩] 10 20 ∧
    ((fetchTransactions
        [⟨"b", 2500, 1672617600, 0, some "example.com/my-post"⟩]
        (fetchTransactions
          [⟨"b", 2500, 1672617600, 0, some "example.com/my-post"⟩]
          [⟨"a", 5000, 1672531200, 0, none⟩] 10 20) 10 20).map
      Tx.payment_hash).Nodup :=
  fetchTransactions_idempotent
    [⟨"b", 2500, 1672617600, 0, some "example.com/my-post"⟩]
    [⟨"a", 5000, 1672531200, 0, none⟩] 10 20 (by decide)

theorem buildSummary_spec_witness :
    (buildSummary [⟨"a", 5000, 1672531200, 0, none⟩] "example.com"
      none).totalUsd = none ∧
    (buildSummary [⟨"a", 5000, 1672531200, 0, none⟩] "example.com"
      none).totalSats =
      ([⟨"a", 5000, 1672531200, 0, none⟩].map txSats).sum := by
  have h := buildSummary_spec [⟨"a", 5000, 1672531200, 0, none⟩]
    "example.com" none
  exact ⟨(h.2.2.2.1 (Or.inl rfl)).1, h.1⟩

theorem parseEssaySlug_spec_witness :
    parseEssaySlug (some "example.com/my-post") "example.com" =
      some "my-post" ∧
    parseEssaySlug (some "example.com") "example.com" = none ∧
    parseEssaySlug none "example.com" = none := by
  have h := parseEssaySlug_spec "example.com" (by decide) (by decide)
  exact ⟨h.2.2.2.1, h.2.2.2.2.1, h.1⟩

theorem aggregateByPeriod_weekly_mondays_witness :
    ∃ z : Int, weekday z = 1 ∧
      ("2023-01-02", (⟨5, 1⟩ : PeriodAcc)).1 = isoDateString z := by
  have h := aggregateByPeriod_weekly_mondays
    [⟨"a", 5000, 1672531200, 0, none⟩]
  exact h.1 ("2023-01-02", ⟨5, 1⟩) (by decide)

theorem fetchRetry_policy_witness :
    runBatchRequest (fun _ => AttemptResult.transientErr) false 2 =
      RetryOutcome.walletUnreachable
        ((List.range' 1 (2 - 1)).map (fun i => 2000 * i)) := by
  have h := fetchRetry_policy (fun _ => AttemptResult.transientErr) false 2
    (by decide)
  exact h.2.2.2.2 (fun i _ => rfl) rfl

theorem buildComparison_spec_witness :
    buildComparison [⟨"a", 5000, 1672531200, 0, none⟩] "monthly" = none := by
  have h := buildComparison_spec [⟨"a", 5000, 1672531200, 0, none⟩] "monthly"
  exact h.1 (by decide)

theorem fetchTransactions_preserves_cached_witness :
    ∃ u ∈ mergeTransactions
      ([⟨"b", 2500, 1672617600, 0, some "example.com/my-post"⟩] : List Tx)
      ([⟨"a", 5000, 1672531200, 0, none⟩] : List Tx),
      u.payment_hash =
        (⟨"a", 5000, 1672531200, 0, none⟩ : Tx).payment_hash := by
  have h := fetchTransactions_preserves_cached
    [⟨"b", 2500, 1672617600, 0, some "example.com/my-post"⟩]
    [⟨"b", 2500, 1672617600, 0, some "example.com/my-post"⟩]
    [⟨"a", 5000, 1672531200, 0, none⟩] 10 20
  exact h.1 ⟨"a", 5000, 1672531200, 0, none⟩ (by decide)

theorem fetchTransactions_paging_bounded_witness :
    (fetchLoop [⟨"b", 2500, 1672617600, 0, some "example.com/my-post"⟩] 10
      (latestCached [⟨"a", 5000, 1672531200, 0, none⟩]) 20 0 []).requests
        ≤ 20 ∧
    (fetchLoop [⟨"b", 2500, 1672617600, 0, some "example.com/my-post"⟩] 10
      (latestCached [⟨"a", 5000, 1672531200, 0, none⟩]) 20 0 []).newTxs.length
        ≤ 20 * 10 := by
  have h := fetchTransactions_paging_bounded
    [⟨"b", 2500, 1672617600, 0, some "example.com/my-post"⟩]
    [⟨"a", 5000, 1672531200, 0, none⟩] 10 20
  exact ⟨h.1, h.2.1⟩

end V4V
